import Mathlib

/-!
Verification of the secure command-execution and batch-processing core of an
ImageMagick wrapper library. The development embeds, as executable Lean
definitions, the argument sanitizer and path validator
(`src/utils/validation.ts`), the process executor (`src/core/executor.ts`)
and the batch scheduler (`src/commands/import.ts::processBatch`), and proves
or refutes the frozen specification claims about them.

Strings are modelled as `List Char` (JS strings are sequences of UTF-16 code
units; all inputs of interest are plain code points). Logging (`warn`,
`console.log`) is a side effect with no influence on return values and is not
modelled. Asynchronous process execution is modelled by passing the observed
behaviour of the child process (`ProcRun`) as an explicit argument.
-/

/-- JS strings modelled as lists of characters. -/
abbrev Str := List Char

deriving instance DecidableEq for Except

/-! ## Argument sanitizer (`src/utils/validation.ts`, `sanitizeArgument`)

The source tests five regular expressions against the token:
`/\|\s*\w+/`, `/;\s*\w+/`, `/&\s*\w+/`, `/\$\([^)]+\)/` and
a backtick-substitution pattern (backtick, one or more non-backtick
characters, backtick). The scanners below are executable semantics of
"the regex matches somewhere in the string". -/

/-- The regex class `\w` of JavaScript: `[A-Za-z0-9_]`. -/
def isWordChar (c : Char) : Bool :=
  (97 ≤ c.toNat && c.toNat ≤ 122) || (65 ≤ c.toNat && c.toNat ≤ 90) ||
    (48 ≤ c.toNat && c.toNat ≤ 57) || c.toNat == 95

/-- The regex class `\s` of JavaScript (whitespace, incl. Unicode spaces). -/
def isSpaceJS (c : Char) : Bool :=
  c.toNat == 32 || c.toNat == 9 || c.toNat == 10 || c.toNat == 13 ||
    c.toNat == 11 || c.toNat == 12 || c.toNat == 0xa0 || c.toNat == 0x1680 ||
    (0x2000 ≤ c.toNat && c.toNat ≤ 0x200a) || c.toNat == 0x2028 ||
    c.toNat == 0x2029 || c.toNat == 0x202f || c.toNat == 0x205f ||
    c.toNat == 0x3000 || c.toNat == 0xfeff

/-- The backtick character, code point 96. -/
def backtickChar : Char := Char.ofNat 96

/-- Does `\s*\w+` match a prefix of the list (equivalently: does the list
start with whitespace followed by a word character)? -/
def wsThenWord : List Char → Bool
  | [] => false
  | c :: r => if isSpaceJS c then wsThenWord r else isWordChar c

/-- Does `X\s*\w+` (for the single character `X = sep`) match anywhere? -/
def hasSepPattern (sep : Char) : List Char → Bool
  | [] => false
  | c :: r => (c == sep && wsThenWord r) || hasSepPattern sep r

/-- Does `[^D]+D` (for the single delimiter character `D = d`) match a
prefix of the list? -/
def delimBody (d : Char) : List Char → Bool
  | [] => false
  | c :: r => c != d && r.contains d

/-- Does `\([^)]+\)` match a prefix of the list? -/
def dollarAfter : List Char → Bool
  | [] => false
  | c :: r => c == '(' && delimBody ')' r

/-- Does `\$\([^)]+\)` (command substitution) match anywhere? -/
def hasDollarParen : List Char → Bool
  | [] => false
  | c :: r => (c == '$' && dollarAfter r) || hasDollarParen r

/-- Does the backtick-substitution regex (backtick, `[^X]+`, backtick for
`X` the backtick) match anywhere? -/
def hasBacktickSub : List Char → Bool
  | [] => false
  | c :: r => (c == backtickChar && delimBody backtickChar r) || hasBacktickSub r

/-- Disjunction of the five `injectionPatterns` of `sanitizeArgument`. -/
def hasInjectionPattern (s : Str) : Bool :=
  hasSepPattern '|' s || hasSepPattern ';' s || hasSepPattern '&' s ||
    hasDollarParen s || hasBacktickSub s

/-- The `dangerousChars` the source merely warns about (log side effect,
no influence on the returned value): `$`, backtick, backslash, quotes. -/
def foundDangerous (s : Str) : List Char :=
  ['$', backtickChar, '\\', '"', '\x27'].filter s.contains

/-- Errors thrown by `sanitizeArgument`. The null-byte message is constant;
the injection message interpolates the offending token. -/
inductive SanitizeError where
  | nullByte : SanitizeError
  | injection (arg : Str) : SanitizeError
deriving DecidableEq

/-- `sanitizeArgument` (validation.ts lines 20-62): rejects null bytes,
then rejects tokens matching any injection pattern, otherwise returns the
token unchanged. (The `typeof` check is subsumed by typing; the
dangerous-character warning is a log side effect.) -/
def sanitizeArgument (arg : Str) : Except SanitizeError Str :=
  if arg.contains '\x00' then .error .nullByte
  else if hasInjectionPattern arg then .error (.injection arg)
  else .ok arg

/-- Error thrown by `sanitizeArguments`: the element error wrapped with the
offending index (message `Invalid argument at index i: ...`). -/
structure ArgIndexError where
  index : Nat
  err : SanitizeError
deriving DecidableEq

/-- The `args.map` of `sanitizeArguments`, with the running index: the
first element rejection aborts the whole call. -/
def sanitizeArgsFrom (i : Nat) : List Str → Except ArgIndexError (List Str)
  | [] => .ok []
  | a :: rest =>
    match sanitizeArgument a with
    | .error e => .error ⟨i, e⟩
    | .ok s =>
      match sanitizeArgsFrom (i + 1) rest with
      | .error e => .error e
      | .ok l => .ok (s :: l)

/-- `sanitizeArguments` (validation.ts lines 70-84). -/
def sanitizeArguments (args : List Str) : Except ArgIndexError (List Str) :=
  sanitizeArgsFrom 0 args

/-! ## Path validator (`src/utils/validation.ts`, `validateFilePath`)

`path.resolve` and `startsWith` are modelled for POSIX paths. The current
working directory is an explicit parameter `cwd`. -/

/-- Split a path on the separator character `/`. -/
def splitSegsAux (cur : Str) : Str → List Str
  | [] => [cur.reverse]
  | c :: r => if c = '/' then cur.reverse :: splitSegsAux [] r else splitSegsAux (c :: cur) r

/-- Segments of a path (possibly empty segments for repeated separators). -/
def splitSegs (p : Str) : List Str := splitSegsAux [] p

/-- Traversal collapsing of `path.resolve`: drop empty and `.` segments,
let `..` pop the previous segment (a no-op at the root). -/
def normSegsAux (stack : List Str) : List Str → List Str
  | [] => stack.reverse
  | s :: rest =>
    if s = [] ∨ s = ['.'] then normSegsAux stack rest
    else if s = ['.', '.'] then normSegsAux stack.tail rest
    else normSegsAux (s :: stack) rest

/-- Join normalized segments back into an absolute path. -/
def joinSegs : List Str → Str
  | [] => ['/']
  | segs => '/' :: List.intercalate ['/'] segs

/-- Does the path start with the separator? -/
def isAbsolutePath : Str → Bool
  | '/' :: _ => true
  | _ => false

/-- POSIX `path.resolve(p)` relative to the working directory `cwd`:
an absolute input is normalized as is, a relative one is appended to `cwd`
first. -/
def pathResolve (cwd p : Str) : Str :=
  if isAbsolutePath p then joinSegs (normSegsAux [] (splitSegs p))
  else joinSegs (normSegsAux [] (splitSegs (cwd ++ '/' :: p)))

/-- Errors thrown by `validateFilePath`: the non-empty-string rejection and
the traversal rejection (whose message names the raw input path and the raw
allowed directory). -/
inductive PathError where
  | invalidPath : PathError
  | traversal (filePath allowedDir : Str) : PathError
deriving DecidableEq

/-- `validateFilePath` (validation.ts lines 97-126): rejects blank input,
resolves the path, and when a non-empty `allowedDir` is supplied (JS
truthiness: the empty string skips the check) requires
`resolved.startsWith(allowedResolved)`; otherwise returns the resolved path.
The `..`-component scan afterwards only warns (log side effect). -/
def validateFilePath (cwd filePath : Str) (allowedDir : Option Str) : Except PathError Str :=
  if filePath.all isSpaceJS then .error .invalidPath
  else
    let resolved := pathResolve cwd filePath
    match allowedDir with
    | some d =>
      if d = [] then .ok resolved
      else if (pathResolve cwd d).isPrefixOf resolved then .ok resolved
      else .error (.traversal filePath d)
    | none => .ok resolved

/-- `validateDirectoryPath` (validation.ts lines 134-142). -/
def validateDirectoryPath (cwd dirPath : Str) : Except PathError Str :=
  if dirPath.all isSpaceJS then .error .invalidPath
  else .ok (pathResolve cwd dirPath)

/-! ## Process executor (`src/core/executor.ts`)

`execute` and `executeStream` sanitize the argument list, locate the binary,
spawn the child process, arm a kill timer when `opts.timeout > 0`, and map
the `close` event to an outcome. The child's observable behaviour is the
explicit `ProcRun` argument: the exit code handed to the `close` handler
(`none` models Node passing `null` when the process was terminated by a
signal), the accumulated stdout/stderr text, and whether the `close` event
fired before the executor's own timeout callback ran (the race winner). -/

/-- Execution options; only `timeout` (default 60000 ms, `0` disables the
kill timer) affects the settled outcome. `cwd`, `env` and `verbose` do not. -/
structure ExecOpts where
  timeout : Int := 60000
deriving DecidableEq

/-- Observable behaviour of one spawned child process. -/
structure ProcRun where
  closeCode : Option Int
  stdout : Str
  stderr : Str
  closesBeforeTimeout : Bool
deriving DecidableEq

/-- The settled outcome of `execute` / `executeStream.done`. -/
inductive ExecOutcome where
  | ok (stdout stderr : Str) (exitCode : Int) : ExecOutcome
  | executionError (message command : Str) (args : List Str) (exitCode : Int)
      (stderr stdout : Str) : ExecOutcome
  | timeoutErr (command : Str) (timeoutMs : Int) : ExecOutcome
  | sanitizeFail (e : ArgIndexError) : ExecOutcome
deriving DecidableEq

/-- What one call to `execute`/`executeStream` did: whether a child process
was spawned, whether the executor's timeout fired `proc.kill` with SIGKILL,
and the settled outcome. -/
structure ExecTrace where
  spawned : Bool
  killSent : Bool
  outcome : ExecOutcome
deriving DecidableEq

/-- `args.join(' ')` of JavaScript. -/
def joinSpace (args : List Str) : Str := List.intercalate [' '] args

/-- The command string interpolated into `TimeoutError` and the verbose log:
the binary path, a space, the joined arguments. -/
def commandString (binaryPath : Str) (args : List Str) : Str :=
  binaryPath ++ ' ' :: joinSpace args

/-- The `ImageMagick command failed: stderr-or-stdout` message of the
non-zero-exit `ExecutionError` (JS `stderr || stdout`). -/
def failureMessage (run : ProcRun) : Str :=
  "ImageMagick command failed: ".toList ++ (if run.stderr = [] then run.stdout else run.stderr)

/-- The shared `close`-event handler of `execute` (executor.ts lines 96-131)
and `executeStream` (lines 201-228): a fired timeout wins and yields
`TimeoutError`; otherwise `code ?? 0` decides between the success outcome
and an `ExecutionError` carrying command, `errArgs`, exit code, stderr and
stdout. `execute` reports the sanitized arguments in the error,
`executeStream` reports the raw `args` (line 218). -/
def closeOutcome (binaryPath : Str) (cmdArgs errArgs : List Str) (timeout : Int)
    (killed : Bool) (run : ProcRun) : ExecOutcome :=
  if killed then .timeoutErr (commandString binaryPath cmdArgs) timeout
  else
    let exitCode := run.closeCode.getD 0
    if exitCode ≠ 0 then
      .executionError (failureMessage run) binaryPath errArgs exitCode run.stderr run.stdout
    else .ok run.stdout run.stderr exitCode

/-- `execute` (executor.ts lines 55-140). Sanitization happens before the
binary lookup and the spawn; a sanitizer rejection therefore propagates with
no process created. The kill timer is armed only when `opts.timeout > 0`;
`killed` records whether it fired before the close event. -/
def executeRun (binaryPath : Str) (args : List Str) (opts : ExecOpts) (run : ProcRun) :
    ExecTrace :=
  match sanitizeArguments args with
  | .error e => ⟨false, false, .sanitizeFail e⟩
  | .ok sargs =>
    let killed := decide (0 < opts.timeout) && !run.closesBeforeTimeout
    ⟨true, killed, closeOutcome binaryPath sargs sargs opts.timeout killed run⟩

/-- The `done` promise of `executeStream` (executor.ts lines 150-245): same
shape as `execute`, except that the `ExecutionError` carries the raw `args`
rather than the sanitized list. -/
def executeStreamRun (binaryPath : Str) (args : List Str) (opts : ExecOpts) (run : ProcRun) :
    ExecTrace :=
  match sanitizeArguments args with
  | .error e => ⟨false, false, .sanitizeFail e⟩
  | .ok sargs =>
    let killed := decide (0 < opts.timeout) && !run.closesBeforeTimeout
    ⟨true, killed, closeOutcome binaryPath sargs args opts.timeout killed run⟩

/-! ## Batch scheduler (`src/commands/import.ts`, `processBatch`)

Per-item process outcomes are supplied as `exec i f` — the result of
`processFile` for the file `f` at (0-based) position `i` of the input list.
Progress events are collected in emission order (the source only calls
`onProgress` when a callback was supplied; the list models the emitted
stream). `attempted` records the positions whose `processFile` call was
started. `duration` is wall-clock time and is not modelled. -/

/-! ### IEEE-754 binary64 model for the progress percentage

The source computes `Math.round(((index + 1) / files.length) * 100)` in
JavaScript numbers, i.e. IEEE-754 binary64: the division and the
multiplication each round their exact result to 53 significant bits
(round-to-nearest, ties-to-even), and `Math.round` (per the ECMAScript
specification) returns the integer closest to the exact value of the
resulting double, preferring the larger on a tie. The model below computes
those roundings exactly over ℕ/ℤ, representing a non-negative double by its
value `m * 2 ^ s` (`Dyadic`). Subnormals and overflow are not modelled: they
are unreachable here, since a JS array has fewer than `2 ^ 32` elements, so
every intermediate value lies well inside the normal range. -/

/-- Floor of the base-2 logarithm (0 for 0 and 1); `fuel = n` suffices. -/
def natLog2Fuel : Nat → Nat → Nat
  | 0, _ => 0
  | fuel + 1, n => if n ≤ 1 then 0 else natLog2Fuel fuel (n / 2) + 1

/-- Floor of the base-2 logarithm of a natural number. -/
def natLog2 (n : Nat) : Nat := natLog2Fuel n n

/-- Ceiling of the base-2 logarithm (least `k` with `m ≤ 2 ^ k`). -/
def ceilLog2Fuel : Nat → Nat → Nat
  | 0, _ => 0
  | fuel + 1, m => if m ≤ 1 then 0 else ceilLog2Fuel fuel ((m + 1) / 2) + 1

/-- Ceiling of the base-2 logarithm of a natural number. -/
def ceilLog2 (m : Nat) : Nat := ceilLog2Fuel m m

/-- A non-negative double, represented exactly by its value `m * 2 ^ s`. -/
structure Dyadic where
  m : Nat
  s : Int
deriving DecidableEq

/-- Round the fraction `p / q` to the nearest integer, ties to even. -/
def rneFrac (p q : Nat) : Nat :=
  if 2 * (p % q) < q then p / q
  else if q < 2 * (p % q) then p / q + 1
  else if p / q % 2 = 0 then p / q else p / q + 1

/-- Round `(a * 2 ^ k) / b` to the nearest integer, ties to even. -/
def rneShift (a b : Nat) (k : Int) : Nat :=
  if 0 ≤ k then rneFrac (a * 2 ^ k.toNat) b
  else rneFrac a (b * 2 ^ (-k).toNat)

/-- The exponent `e` with `2 ^ e ≤ a / b < 2 ^ (e + 1)` (for `1 ≤ a / b` via
`natLog2` of the integer quotient, below 1 via `ceilLog2` of the ceiling of
the reciprocal). -/
def floorLog2Frac (a b : Nat) : Int :=
  if b ≤ a then (natLog2 (a / b) : Int) else -(ceilLog2 ((b + a - 1) / a) : Int)

/-- Round the real `(a / b) * 2 ^ t` to binary64: scale to a 53-bit
mantissa in `[2 ^ 52, 2 ^ 53)` and round to nearest, ties to even. (A
mantissa carry to `2 ^ 53` is value-correct as is, since only the value is
represented.) -/
def roundScaled (a b : Nat) (t : Int) : Dyadic :=
  if a = 0 then ⟨0, 0⟩
  else ⟨rneShift a b (52 - floorLog2Frac a b), floorLog2Frac a b + t - 52⟩

/-- The double nearest to the natural number `n` (exact for `n < 2 ^ 53`,
hence for every reachable index and total). -/
def toDouble (n : Nat) : Dyadic := roundScaled n 1 0

/-- Binary64 division `x / y` of non-negative doubles. -/
def jsDivD (x y : Dyadic) : Dyadic := roundScaled x.m y.m (x.s - y.s)

/-- Binary64 multiplication `x * 100`. -/
def jsMul100 (x : Dyadic) : Dyadic := roundScaled (x.m * 100) 1 x.s

/-- `Math.round` on a non-negative double: the integer nearest to the exact
value `m * 2 ^ s`, preferring the larger on a tie. -/
def mathRoundD (x : Dyadic) : Nat :=
  if 0 ≤ x.s then x.m * 2 ^ x.s.toNat
  else (2 * x.m + 2 ^ (-x.s).toNat) / (2 * 2 ^ (-x.s).toNat)

/-- `Math.round(((i + 1) / total) * 100)` as the source evaluates it, with
`idx = i + 1`: convert both operands to doubles, divide, multiply by 100,
each in binary64, then `Math.round` the result. -/
def jsPercentage (idx total : Nat) : Nat :=
  mathRoundD (jsMul100 (jsDivD (toDouble idx) (toDouble total)))

/-- One `BatchProgress` event (import.ts lines 745-756): 1-based `index`,
`percentage = Math.round((index / total) * 100)` evaluated in binary64
(`jsPercentage`), `complete` iff the 0-based position equals `total - 1`. -/
structure BatchProgress (ε : Type) where
  current : Str
  index : Nat
  total : Nat
  percentage : Nat
  complete : Bool
  error : Option ε
deriving DecidableEq

/-- The event `reportProgress(f, i, err?)` builds. -/
def mkProgress (f : Str) (i total : Nat) (err : Option ε) : BatchProgress ε :=
  ⟨f, i + 1, total, jsPercentage (i + 1) total, decide (i = total - 1), err⟩

/-- `BatchResult` (success and failed lists in push order, emitted progress
events, attempted 0-based positions). -/
structure BatchResult (ε : Type) where
  success : List Str
  failed : List (Str × ε)
  events : List (BatchProgress ε)
  attempted : List Nat
deriving DecidableEq

/-- The sequential branch of `processBatch` (import.ts lines 758-777):
falsy files (the empty string) are skipped before any attempt; a failure
with `continueOnError = false` breaks the loop. -/
def processSeq (exec : Nat → Str → Except ε Unit) (total : Nat) (cont : Bool) :
    Nat → List Str → BatchResult ε
  | _, [] => ⟨[], [], [], []⟩
  | i, f :: rest =>
    if f = [] then processSeq exec total cont (i + 1) rest
    else
      match exec i f with
      | .ok _ =>
        let r := processSeq exec total cont (i + 1) rest
        ⟨f :: r.success, r.failed, mkProgress f i total none :: r.events, i :: r.attempted⟩
      | .error e =>
        if cont then
          let r := processSeq exec total cont (i + 1) rest
          ⟨r.success, (f, e) :: r.failed, mkProgress f i total (some e) :: r.events,
            i :: r.attempted⟩
        else ⟨[], [(f, e)], [mkProgress f i total (some e)], [i]⟩

/-- Structural worker for `chunkList`: each chunk consumes at least one
element, so `fuel = l.length` steps suffice. -/
def chunkListFuel (k : Nat) : Nat → List α → List (List α)
  | 0, _ => []
  | _, [] => []
  | fuel + 1, a :: rest => (a :: rest.take k) :: chunkListFuel k fuel (rest.drop k)

/-- `files.slice(i, i + parallel)` chunking (import.ts lines 780-783);
`k + 1` is the chunk size. -/
def chunkList (k : Nat) (l : List α) : List (List α) := chunkListFuel k l.length l

/-- The per-chunk result-collection loop of the parallel branch (import.ts
lines 792-818), over the settled results of one chunk: falsy files are
skipped after settlement (their result is discarded and `processedCount`
does not advance); a failure with `continueOnError = false` returns early,
discarding the remaining settled results of the chunk. Returns the
chunk-local accumulations, the updated `processedCount`, and the abort
flag. -/
def collectChunk (total : Nat) (cont : Bool) :
    List (Nat × Str × Except ε Unit) → Nat → BatchResult ε × Nat × Bool
  | [], pc => (⟨[], [], [], []⟩, pc, false)
  | (_, f, res) :: rest, pc =>
    if f = [] then collectChunk total cont rest pc
    else
      match res with
      | .ok _ =>
        let r := collectChunk total cont rest (pc + 1)
        (⟨f :: r.1.success, r.1.failed, mkProgress f pc total none :: r.1.events, []⟩,
          r.2.1, r.2.2)
      | .error e =>
        if cont then
          let r := collectChunk total cont rest (pc + 1)
          (⟨r.1.success, (f, e) :: r.1.failed, mkProgress f pc total (some e) :: r.1.events, []⟩,
            r.2.1, r.2.2)
        else (⟨[], [(f, e)], [mkProgress f pc total (some e)], []⟩, pc + 1, true)

/-- The parallel branch of `processBatch` (import.ts lines 778-820): the
whole chunk is dispatched (`Promise.allSettled` attempts every member,
including falsy ones), its results are collected, and an abort stops before
the next chunk. -/
def processChunks (exec : Nat → Str → Except ε Unit) (total : Nat) (cont : Bool) :
    List (List (Nat × Str)) → Nat → BatchResult ε
  | [], _ => ⟨[], [], [], []⟩
  | chunk :: rest, pc =>
    let results := chunk.map (fun p => (p.1, p.2, exec p.1 p.2))
    let r := collectChunk total cont results pc
    if r.2.2 then ⟨r.1.success, r.1.failed, r.1.events, chunk.map Prod.fst⟩
    else
      let r' := processChunks exec total cont rest r.2.1
      ⟨r.1.success ++ r'.success, r.1.failed ++ r'.failed, r.1.events ++ r'.events,
        chunk.map Prod.fst ++ r'.attempted⟩

/-- `processBatch` (import.ts lines 734-827): `parallel` is clamped to at
least 1; `parallel = 1` selects the sequential loop, otherwise the input is
chunked into groups of `parallel` and processed chunk by chunk. -/
def processBatch (exec : Nat → Str → Except ε Unit) (files : List Str)
    (continueOnError : Bool) (parallel : Nat) : BatchResult ε :=
  let par := max 1 parallel
  if par = 1 then processSeq exec files.length continueOnError 0 files
  else processChunks exec files.length continueOnError (chunkList (par - 1) files.enum) 0

/-- The `error` field carried by the progress event of one item: `none` on
success, the caught error on failure. -/
def errOf (exec : Nat → Str → Except ε Unit) (i : Nat) (f : Str) : Option ε :=
  match exec i f with
  | .ok _ => none
  | .error e => some e

/-! ## Declarative reading of the injection patterns

The claims speak of a token "containing" one of the patterns. The following
predicates state that containment as an explicit decomposition of the
string, independently of the scanning functions above; the equivalence of
the two readings is proved below. -/

/-- The token contains `sep` followed by optional whitespace and a word
character (the regexes `\|\s*\w+`, `;\s*\w+`, `&\s*\w+`). -/
def SepMatch (sep : Char) (s : Str) : Prop :=
  ∃ a ws c b, s = a ++ sep :: (ws ++ c :: b) ∧ (∀ x ∈ ws, isSpaceJS x = true) ∧
    isWordChar c = true

/-- The token contains `$(`, one or more non-`)` characters, then `)`
(the regex `\$\([^)]+\)`). -/
def DollarParenMatch (s : Str) : Prop :=
  ∃ a body b, s = a ++ '$' :: '(' :: (body ++ ')' :: b) ∧ body ≠ [] ∧
    ∀ x ∈ body, x ≠ ')'

/-- The token contains a backtick, one or more non-backtick characters,
then a backtick (the backtick-substitution regex). -/
def BacktickMatch (s : Str) : Prop :=
  ∃ a body b, s = a ++ backtickChar :: (body ++ backtickChar :: b) ∧ body ≠ [] ∧
    ∀ x ∈ body, x ≠ backtickChar

/-- The token contains at least one of the five injection patterns. -/
def InjectionMatch (s : Str) : Prop :=
  SepMatch '|' s ∨ SepMatch ';' s ∨ SepMatch '&' s ∨ DollarParenMatch s ∨ BacktickMatch s

example : sanitizeArgument "800x600+10+20".toList = .ok "800x600+10+20".toList := by decide
example : sanitizeArgument "800x600; rm -rf /".toList = .error (.injection "800x600; rm -rf /".toList) := by decide
example : sanitizeArgument "a|b".toList = .error (.injection "a|b".toList) := by decide
example : sanitizeArgument "$(whoami)".toList = .error (.injection "$(whoami)".toList) := by decide
example : sanitizeArgument "$()".toList = .ok "$()".toList := by decide
example : sanitizeArgument ['\x00'] = .error .nullByte := by decide
example : sanitizeArgument ['\x00', ';', 'x'] = .error .nullByte := by decide
example : hasInjectionPattern ['\x00', ';', 'x'] = true := by decide
example : sanitizeArguments ["convert".toList, "a;b".toList] = .error ⟨1, .injection "a;b".toList⟩ := by decide

/-! ## Scanner/decomposition equivalences for the injection patterns -/

/-- A word character is never whitespace. -/
theorem isWordChar_not_space (c : Char) (h : isWordChar c = true) : isSpaceJS c = false := by
  unfold isWordChar at h
  unfold isSpaceJS
  simp only [Bool.or_eq_true, Bool.and_eq_true, decide_eq_true_eq, beq_iff_eq] at h
  simp only [Bool.or_eq_false_iff, Bool.and_eq_false_iff, decide_eq_false_iff_not, beq_eq_false_iff_ne, ne_eq]
  omega

/-- `wsThenWord` holds exactly when the list starts with whitespace followed
by a word character. -/
theorem wsThenWord_iff (l : List Char) :
    wsThenWord l = true ↔
      ∃ ws c b, l = ws ++ c :: b ∧ (∀ x ∈ ws, isSpaceJS x = true) ∧ isWordChar c = true := by
  induction l with
  | nil =>
    constructor
    · intro h; cases h
    · rintro ⟨ws, c, b, h, -, -⟩
      exact absurd h (by simp)
  | cons x r ih =>
    constructor
    · intro h
      by_cases hx : isSpaceJS x = true
      · rw [wsThenWord, if_pos hx] at h
        obtain ⟨ws, c, b, heq, hws, hc⟩ := ih.mp h
        exact ⟨x :: ws, c, b, by rw [heq]; rfl, by
          intro y hy
          rcases List.mem_cons.mp hy with rfl | hy
          · exact hx
          · exact hws y hy, hc⟩
      · rw [wsThenWord, if_neg hx] at h
        exact ⟨[], x, r, rfl, by simp, h⟩
    · rintro ⟨ws, c, b, heq, hws, hc⟩
      cases ws with
      | nil =>
        simp only [List.nil_append] at heq
        injection heq with h1 h2
        subst h1; subst h2
        rw [wsThenWord, if_neg (by simp [isWordChar_not_space x hc])]
        exact hc
      | cons w ws =>
        simp only [List.cons_append] at heq
        injection heq with h1 h2
        subst h1; subst h2
        rw [wsThenWord, if_pos (hws x (by simp))]
        exact ih.mpr ⟨ws, c, b, rfl, fun y hy => hws y (by simp [hy]), hc⟩

/-- Soundness half of the separator-pattern scanner. -/
theorem sepMatch_of_hasSepPattern (sep : Char) (s : List Char)
    (h : hasSepPattern sep s = true) : SepMatch sep s := by
  induction s with
  | nil => cases h
  | cons x r ih =>
    rw [hasSepPattern, Bool.or_eq_true, Bool.and_eq_true, beq_iff_eq] at h
    rcases h with ⟨rfl, hw⟩ | h
    · obtain ⟨ws, c, b, heq, hws, hc⟩ := (wsThenWord_iff r).mp hw
      exact ⟨[], ws, c, b, by rw [heq]; rfl, hws, hc⟩
    · obtain ⟨a, ws, c, b, heq, hws, hc⟩ := ih h
      exact ⟨x :: a, ws, c, b, by rw [heq]; rfl, hws, hc⟩

/-- Completeness half of the separator-pattern scanner. -/
theorem hasSepPattern_of_sepMatch (sep : Char) (s : List Char)
    (h : SepMatch sep s) : hasSepPattern sep s = true := by
  obtain ⟨a, ws, c, b, heq, hws, hc⟩ := h
  subst heq
  induction a with
  | nil =>
    rw [List.nil_append, hasSepPattern, Bool.or_eq_true, Bool.and_eq_true, beq_iff_eq]
    exact Or.inl ⟨rfl, (wsThenWord_iff _).mpr ⟨ws, c, b, rfl, hws, hc⟩⟩
  | cons y a ih =>
    rw [List.cons_append, hasSepPattern, Bool.or_eq_true]
    exact Or.inr ih

/-- The separator-pattern scanner decides the declarative containment. -/
theorem hasSepPattern_iff (sep : Char) (s : List Char) :
    hasSepPattern sep s = true ↔ SepMatch sep s :=
  ⟨sepMatch_of_hasSepPattern sep s, hasSepPattern_of_sepMatch sep s⟩

/-- Any member of a list can be reached at its first occurrence: a split
with no earlier occurrence. -/
theorem exists_first_split (a : Char) (l : List Char) (h : a ∈ l) :
    ∃ p q, l = p ++ a :: q ∧ a ∉ p := by
  induction l with
  | nil => cases h
  | cons x r ih =>
    by_cases hx : x = a
    · exact ⟨[], r, by subst hx; rfl, by simp⟩
    · have hr : a ∈ r := by
        rcases List.mem_cons.mp h with h1 | h1
        · exact absurd h1.symm hx
        · exact h1
      obtain ⟨p, q, rfl, hp⟩ := ih hr
      refine ⟨x :: p, q, rfl, ?_⟩
      intro hmem
      rcases List.mem_cons.mp hmem with h1 | h1
      · exact hx h1.symm
      · exact hp h1

/-- `delimBody` holds exactly when the list starts with a non-empty run of
non-delimiter characters closed by the delimiter. -/
theorem delimBody_iff (d : Char) (l : List Char) :
    delimBody d l = true ↔
      ∃ body b, l = body ++ d :: b ∧ body ≠ [] ∧ ∀ x ∈ body, x ≠ d := by
  constructor
  · intro h
    cases l with
    | nil => cases h
    | cons c r =>
      rw [delimBody, Bool.and_eq_true, bne_iff_ne] at h
      obtain ⟨hc, hr⟩ := h
      obtain ⟨p, q, rfl, hp⟩ := exists_first_split d r (List.elem_iff.mp hr)
      refine ⟨c :: p, q, rfl, by simp, ?_⟩
      intro x hx
      rcases List.mem_cons.mp hx with rfl | hx
      · exact hc
      · intro hxd; exact hp (hxd ▸ hx)
  · rintro ⟨body, b, rfl, hne, hbody⟩
    cases body with
    | nil => exact absurd rfl hne
    | cons c p =>
      rw [List.cons_append, delimBody, Bool.and_eq_true, bne_iff_ne]
      exact ⟨hbody c (by simp), List.elem_iff.mpr (by simp)⟩

/-- Soundness half of the command-substitution scanner. -/
theorem dollarParenMatch_of_hasDollarParen (s : List Char)
    (h : hasDollarParen s = true) : DollarParenMatch s := by
  induction s with
  | nil => cases h
  | cons x r ih =>
    rw [hasDollarParen, Bool.or_eq_true, Bool.and_eq_true, beq_iff_eq] at h
    rcases h with ⟨rfl, hafter⟩ | h
    · cases r with
      | nil => cases hafter
      | cons y q =>
        rw [dollarAfter, Bool.and_eq_true, beq_iff_eq] at hafter
        obtain ⟨rfl, hbody⟩ := hafter
        obtain ⟨body, b, rfl, hne, hb⟩ := (delimBody_iff ')' q).mp hbody
        exact ⟨[], body, b, rfl, hne, hb⟩
    · obtain ⟨a, body, b, heq, hne, hb⟩ := ih h
      exact ⟨x :: a, body, b, by rw [heq]; rfl, hne, hb⟩

/-- Completeness half of the command-substitution scanner. -/
theorem hasDollarParen_of_dollarParenMatch (s : List Char)
    (h : DollarParenMatch s) : hasDollarParen s = true := by
  obtain ⟨a, body, b, heq, hne, hb⟩ := h
  subst heq
  induction a with
  | nil =>
    rw [List.nil_append, hasDollarParen, Bool.or_eq_true, Bool.and_eq_true, beq_iff_eq]
    refine Or.inl ⟨rfl, ?_⟩
    rw [dollarAfter, Bool.and_eq_true, beq_iff_eq]
    exact ⟨rfl, (delimBody_iff ')' _).mpr ⟨body, b, rfl, hne, hb⟩⟩
  | cons y a ih =>
    rw [List.cons_append, hasDollarParen, Bool.or_eq_true]
    exact Or.inr ih

/-- The command-substitution scanner decides the declarative containment. -/
theorem hasDollarParen_iff (s : List Char) :
    hasDollarParen s = true ↔ DollarParenMatch s :=
  ⟨dollarParenMatch_of_hasDollarParen s, hasDollarParen_of_dollarParenMatch s⟩

/-- Soundness half of the backtick-substitution scanner. -/
theorem backtickMatch_of_hasBacktickSub (s : List Char)
    (h : hasBacktickSub s = true) : BacktickMatch s := by
  induction s with
  | nil => cases h
  | cons x r ih =>
    rw [hasBacktickSub, Bool.or_eq_true, Bool.and_eq_true, beq_iff_eq] at h
    rcases h with ⟨rfl, hbody⟩ | h
    · obtain ⟨body, b, rfl, hne, hb⟩ := (delimBody_iff backtickChar r).mp hbody
      exact ⟨[], body, b, rfl, hne, hb⟩
    · obtain ⟨a, body, b, heq, hne, hb⟩ := ih h
      exact ⟨x :: a, body, b, by rw [heq]; rfl, hne, hb⟩

/-- Completeness half of the backtick-substitution scanner. -/
theorem hasBacktickSub_of_backtickMatch (s : List Char)
    (h : BacktickMatch s) : hasBacktickSub s = true := by
  obtain ⟨a, body, b, heq, hne, hb⟩ := h
  subst heq
  induction a with
  | nil =>
    rw [List.nil_append, hasBacktickSub, Bool.or_eq_true, Bool.and_eq_true, beq_iff_eq]
    exact Or.inl ⟨rfl, (delimBody_iff backtickChar _).mpr ⟨body, b, rfl, hne, hb⟩⟩
  | cons y a ih =>
    rw [List.cons_append, hasBacktickSub, Bool.or_eq_true]
    exact Or.inr ih

/-- The backtick scanner decides the declarative containment. -/
theorem hasBacktickSub_iff (s : List Char) :
    hasBacktickSub s = true ↔ BacktickMatch s :=
  ⟨backtickMatch_of_hasBacktickSub s, hasBacktickSub_of_backtickMatch s⟩

/-- The full scanner decides the declarative injection containment. -/
theorem hasInjectionPattern_iff (s : Str) :
    hasInjectionPattern s = true ↔ InjectionMatch s := by
  rw [hasInjectionPattern, InjectionMatch]
  simp only [Bool.or_eq_true, hasSepPattern_iff, hasDollarParen_iff, hasBacktickSub_iff]
  tauto

/-! ## Claim C1 (sanitizer soundness)

The claim, as stated, is false: the null-byte check of `sanitizeArgument`
runs before the pattern checks, so a token containing both a NUL byte and an
injection pattern fails with the null-byte error, not the injection-pattern
error. Restricted to NUL-free tokens, both halves of the claim hold. -/

/-- Counterexample to claim C1 as stated: the token `"\x00;x"` contains an
injection pattern (`;` followed by a word character), yet `sanitizeArgument`
does not fail with the injection-pattern error — it fails with the
null-byte error. -/
theorem sanitize_injection_counterexample :
    InjectionMatch ['\x00', ';', 'x'] ∧
      sanitizeArgument ['\x00', ';', 'x'] ≠ .error (.injection ['\x00', ';', 'x']) ∧
      sanitizeArgument ['\x00', ';', 'x'] = .error .nullByte := by
  refine ⟨(hasInjectionPattern_iff _).mp (by decide), by decide, by decide⟩

/-- Claim C1, amended: for every string token WITHOUT a NUL byte, if the
token contains an injection pattern (`|`/`;`/`&` followed by an optional
whitespace run and a word character, `$(...)` command substitution with a
non-empty body, or backtick-delimited substitution with a non-empty body)
then `sanitizeArgument` fails with the injection-pattern error naming the
token; and if it contains none of these patterns, `sanitizeArgument`
returns the token unchanged. -/
theorem sanitize_injection_amended (s : Str) (hn : '\x00' ∉ s) :
    (InjectionMatch s → sanitizeArgument s = .error (.injection s)) ∧
    (¬ InjectionMatch s → sanitizeArgument s = .ok s) := by
  have hc : ¬ (s.contains '\x00' = true) := fun h => hn (List.elem_iff.mp h)
  constructor
  · intro h
    rw [sanitizeArgument, if_neg hc, if_pos ((hasInjectionPattern_iff s).mpr h)]
  · intro h
    rw [sanitizeArgument, if_neg hc, if_neg (fun hb => h ((hasInjectionPattern_iff s).mp hb))]

/-- Witness for the amended C1 at the concrete token `"|x"`. -/
theorem sanitize_injection_amended_witness :
    sanitizeArgument ['|', 'x'] = .error (.injection ['|', 'x']) :=
  (sanitize_injection_amended ['|', 'x'] (by decide)).1
    (Or.inl ⟨[], [], 'x', [], rfl, by simp, by decide⟩)

/-! ## Claims C2 and C10 (path validator)

C2 quantifies over file paths and allowed directories in the sense of the
data model: a path is a non-blank string (a blank one is rejected upfront
with the invalid-path error) and an allowed directory is a non-empty string
(the JS-falsy empty string disables the check). Under those domain
conditions the claim holds, with "begins with" being string-prefix on the
resolved paths — which is exactly the boundary-less `startsWith` that claim
C10 exhibits. -/

/-- Claim C2: when the resolved allowed directory is not a string prefix of
the resolved path, `validateFilePath` fails with the path-traversal error
naming both raw paths; when it is, `validateFilePath` returns the resolved
absolute path. The check is on `pathResolve`d paths, not raw strings. -/
theorem validateFilePath_containment (cwd fp d : Str)
    (hfp : fp.all isSpaceJS = false) (hd : d ≠ []) :
    ((pathResolve cwd d).isPrefixOf (pathResolve cwd fp) = false →
      validateFilePath cwd fp (some d) = .error (.traversal fp d)) ∧
    ((pathResolve cwd d).isPrefixOf (pathResolve cwd fp) = true →
      validateFilePath cwd fp (some d) = .ok (pathResolve cwd fp)) := by
  constructor
  · intro h
    simp [validateFilePath, hfp, hd, h]
  · intro h
    simp [validateFilePath, hfp, hd, h]

/-- Witness for C2 at §8 Scenario B: `validateFilePath("../../etc/passwd",
"/home/user/images")` with working directory `/home/user` resolves to
`/etc/passwd` and fails with the traversal error naming both raw paths. -/
theorem validateFilePath_containment_witness :
    validateFilePath "/home/user".toList "../../etc/passwd".toList
        (some "/home/user/images".toList) =
      .error (.traversal "../../etc/passwd".toList "/home/user/images".toList) :=
  (validateFilePath_containment "/home/user".toList "../../etc/passwd".toList
    "/home/user/images".toList (by decide) (by decide)).1 (by decide)

/-- Claim C10: the containment check is a raw string-prefix test with no
path-separator boundary. `/home/user/images-private/x` is outside the
allowed directory `/home/user/images` (it is neither that directory nor
under `images/`), yet `validateFilePath` accepts it and returns the
resolved path, because the resolved strings are in the prefix relation. -/
theorem validateFilePath_prefix_no_boundary :
    validateFilePath "/tmp".toList "/home/user/images-private/x".toList
        (some "/home/user/images".toList) = .ok "/home/user/images-private/x".toList ∧
    pathResolve "/tmp".toList "/home/user/images-private/x".toList ≠
      pathResolve "/tmp".toList "/home/user/images".toList ∧
    ((pathResolve "/tmp".toList "/home/user/images".toList ++ ['/']).isPrefixOf
        (pathResolve "/tmp".toList "/home/user/images-private/x".toList)) = false := by
  exact ⟨by decide, by decide, by decide⟩

/-! ## Claims C3, C4, C7, C9 (process executor) -/

/-- Claim C3 (exit-code mapping): when the child exits on its own (the kill
timer did not fire) with exit code `c`, code 0 settles as the success
outcome carrying stdout, stderr and exit code 0; any non-zero code settles
as an `ExecutionError` carrying the command (binary path), the sanitized
argument list, that exact exit code, and the captured stderr and stdout —
full diagnostic context, not only a message string. -/
theorem execute_exit_code_mapping (bp : Str) (args : List Str) (opts : ExecOpts)
    (run : ProcRun) (sargs : List Str) (c : Int)
    (hs : sanitizeArguments args = .ok sargs)
    (ht : 0 < opts.timeout → run.closesBeforeTimeout = true)
    (hc : run.closeCode = some c) :
    (c = 0 → executeRun bp args opts run = ⟨true, false, .ok run.stdout run.stderr 0⟩) ∧
    (c ≠ 0 → executeRun bp args opts run =
      ⟨true, false,
        .executionError (failureMessage run) bp sargs c run.stderr run.stdout⟩) := by
  have hk : (decide (0 < opts.timeout) && !run.closesBeforeTimeout) = false := by
    by_cases h : 0 < opts.timeout
    · simp [h, ht h]
    · simp [h]
  constructor
  · rintro rfl
    simp [executeRun, hs, hk, closeOutcome, hc]
  · intro hcz
    simp [executeRun, hs, hk, closeOutcome, hc, hcz]

/-- Witness for C3 at a concrete non-zero exit: code 1 with stderr `"e"`. -/
theorem execute_exit_code_mapping_witness :
    executeRun "magick".toList ["-version".toList] {} ⟨some 1, "o".toList, "e".toList, true⟩ =
      ⟨true, false,
        .executionError (failureMessage ⟨some 1, "o".toList, "e".toList, true⟩)
          "magick".toList ["-version".toList] 1 "e".toList "o".toList⟩ :=
  (execute_exit_code_mapping "magick".toList ["-version".toList] {}
    ⟨some 1, "o".toList, "e".toList, true⟩ ["-version".toList] 1
    (by decide) (fun _ => rfl) rfl).2 (by decide)

/-- Claim C4 (timeout): with `timeout > 0`, if the close event does not win
the race against the kill timer, the executor sends the kill and the call
settles with `TimeoutError` carrying the command string and the configured
timeout; if the process exits first, the timer is a no-op (`killSent =
false`) and the call settles with the process's own close outcome. -/
theorem execute_timeout (bp : Str) (args : List Str) (opts : ExecOpts)
    (run : ProcRun) (sargs : List Str)
    (hs : sanitizeArguments args = .ok sargs)
    (htp : 0 < opts.timeout) :
    (run.closesBeforeTimeout = false →
      executeRun bp args opts run =
        ⟨true, true, .timeoutErr (commandString bp sargs) opts.timeout⟩) ∧
    (run.closesBeforeTimeout = true →
      (executeRun bp args opts run).killSent = false ∧
      (executeRun bp args opts run).outcome =
        closeOutcome bp sargs sargs opts.timeout false run) := by
  constructor
  · intro h
    simp [executeRun, hs, h, htp, closeOutcome]
  · intro h
    simp [executeRun, hs, h, htp]

/-- Witness for C4 at a concrete timed-out run (close loses the race). -/
theorem execute_timeout_witness :
    executeRun "magick".toList ["-version".toList] {} ⟨none, [], [], false⟩ =
      ⟨true, true,
        .timeoutErr (commandString "magick".toList ["-version".toList]) 60000⟩ :=
  (execute_timeout "magick".toList ["-version".toList] {} ⟨none, [], [], false⟩
    ["-version".toList] (by decide) (by decide)).1 rfl

/-- The first offending argument is reported by `sanitizeArguments`: if some
element fails `sanitizeArgument`, the whole call fails with an indexed
error pointing at an element that fails exactly that way. -/
theorem sanitizeArgsFrom_error (args : List Str) :
    ∀ i, (∃ a ∈ args, (sanitizeArgument a).isOk = false) →
      ∃ j e a, sanitizeArgsFrom i args = .error ⟨j, e⟩ ∧
        args.get? (j - i) = some a ∧ sanitizeArgument a = .error e ∧ i ≤ j := by
  induction args with
  | nil =>
    rintro i ⟨a, ha, -⟩
    cases ha
  | cons x rest ih =>
    rintro i ⟨a, ha, hbad⟩
    cases hsx : sanitizeArgument x with
    | error e =>
      refine ⟨i, e, x, by simp [sanitizeArgsFrom, hsx], ?_, hsx, le_refl i⟩
      simp [Nat.sub_self]
    | ok s =>
      have hrest : ∃ a ∈ rest, (sanitizeArgument a).isOk = false := by
        rcases List.mem_cons.mp ha with rfl | hmem
        · rw [hsx] at hbad; cases hbad
        · exact ⟨a, hmem, hbad⟩
      obtain ⟨j, e, a2, hgo, hget, herr, hij⟩ := ih (i + 1) hrest
      refine ⟨j, e, a2, by simp [sanitizeArgsFrom, hsx, hgo], ?_, herr, by omega⟩
      have h1 : j - i = (j - (i + 1)) + 1 := by omega
      rw [h1]
      simpa using hget

/-- Claim C7 (sanitize before spawn): if any token fails sanitization, both
`execute` and `executeStream` fail with that indexed sanitization error and
no child process is ever spawned. -/
theorem execute_sanitizes_before_spawn (bp : Str) (args : List Str) (opts : ExecOpts)
    (run : ProcRun) (h : ∃ a ∈ args, (sanitizeArgument a).isOk = false) :
    (executeRun bp args opts run).spawned = false ∧
    (executeStreamRun bp args opts run).spawned = false ∧
    ∃ j e a, args.get? j = some a ∧ sanitizeArgument a = .error e ∧
      (executeRun bp args opts run).outcome = .sanitizeFail ⟨j, e⟩ ∧
      (executeStreamRun bp args opts run).outcome = .sanitizeFail ⟨j, e⟩ := by
  obtain ⟨j, e, a, hgo, hget, herr, -⟩ := sanitizeArgsFrom_error args 0 h
  have hs : sanitizeArguments args = .error ⟨j, e⟩ := hgo
  refine ⟨by simp [executeRun, hs], by simp [executeStreamRun, hs], j, e, a, ?_, herr,
    by simp [executeRun, hs], by simp [executeStreamRun, hs]⟩
  simpa using hget

/-- Witness for C7 at the concrete token list `["a;b"]`. -/
theorem execute_sanitizes_before_spawn_witness :
    (executeRun "magick".toList ["a;b".toList] {} ⟨some 0, [], [], true⟩).spawned = false :=
  (execute_sanitizes_before_spawn "magick".toList ["a;b".toList] {}
    ⟨some 0, [], [], true⟩ ⟨"a;b".toList, by decide, by decide⟩).1

/-- Claim C9 (null exit code coerced to success): when the close event
reports a `null` exit code (external signal termination) and the executor's
own timeout did not fire, both `execute` and `executeStream` coerce the
code to 0 and settle with the success outcome rather than any error. -/
theorem execute_null_code_success (bp : Str) (args : List Str) (opts : ExecOpts)
    (run : ProcRun) (sargs : List Str)
    (hs : sanitizeArguments args = .ok sargs)
    (hc : run.closeCode = none)
    (ht : 0 < opts.timeout → run.closesBeforeTimeout = true) :
    executeRun bp args opts run = ⟨true, false, .ok run.stdout run.stderr 0⟩ ∧
    executeStreamRun bp args opts run = ⟨true, false, .ok run.stdout run.stderr 0⟩ := by
  have hk : (decide (0 < opts.timeout) && !run.closesBeforeTimeout) = false := by
    by_cases h : 0 < opts.timeout
    · simp [h, ht h]
    · simp [h]
  constructor
  · simp [executeRun, hs, hk, closeOutcome, hc]
  · simp [executeStreamRun, hs, hk, closeOutcome, hc]

/-- Witness for C9 at a concrete signal-terminated run. -/
theorem execute_null_code_success_witness :
    executeRun "magick".toList ["-version".toList] {} ⟨none, "o".toList, "e".toList, true⟩ =
      ⟨true, false, .ok "o".toList "e".toList 0⟩ :=
  (execute_null_code_success "magick".toList ["-version".toList] {}
    ⟨none, "o".toList, "e".toList, true⟩ ["-version".toList]
    (by decide) rfl (fun _ => rfl)).1

/-! ## Claims C5, C6, C8 (batch scheduler)

C5 and C8 fail as stated because of the falsy-file guards
(`if (!file) continue` and `if (!file || !result) continue`): an item that
is the empty string is silently dropped — it lands in neither `success` nor
`failed` and emits no progress event. Restricted to batches whose items are
non-empty strings, both claims hold, in both the sequential and the chunked
parallel mode for C5. -/

/-- Claim C6 (§8 Scenario D): five items, item 3 (0-based position 2) fails,
`continueOnError = false`, `parallel = 1`. The call returns a value (the
model is a total function — the scheduler converts the per-item error into
a `failed` entry instead of re-throwing): items 1 and 2 succeeded, exactly
item 3 failed with its error, and positions 3 and 4 were never attempted. -/
theorem processBatch_failfast_scenario :
    (processBatch (ε := Unit) (fun i _ => if i = 2 then .error () else .ok ())
        ["f1".toList, "f2".toList, "f3".toList, "f4".toList, "f5".toList]
        false 1).success = ["f1".toList, "f2".toList] ∧
    (processBatch (ε := Unit) (fun i _ => if i = 2 then .error () else .ok ())
        ["f1".toList, "f2".toList, "f3".toList, "f4".toList, "f5".toList]
        false 1).failed = [("f3".toList, ())] ∧
    (processBatch (ε := Unit) (fun i _ => if i = 2 then .error () else .ok ())
        ["f1".toList, "f2".toList, "f3".toList, "f4".toList, "f5".toList]
        false 1).attempted = [0, 1, 2] := by
  exact ⟨by decide, by decide, by decide⟩

/-- Counterexample to claim C5 as stated: a batch of one item that is the
empty string, `continueOnError = true`, sequential mode. The item lands in
neither collection: `|success| + |failed| = 0 ≠ 1 = N`. -/
theorem processBatch_partition_counterexample :
    (processBatch (ε := Unit) (fun _ _ => .ok ()) [[]] true 1).success.length +
      (processBatch (ε := Unit) (fun _ _ => .ok ()) [[]] true 1).failed.length ≠ 1 := by
  decide

/-- Sequential mode partitions every non-empty item into exactly one of the
two collections (stated with multiset counts so duplicates are respected). -/
theorem processSeq_counts (exec : Nat → Str → Except ε Unit) (total : Nat)
    (files : List Str) : ∀ i, (∀ f ∈ files, f ≠ []) →
      ((processSeq exec total true i files).success.length +
        (processSeq exec total true i files).failed.length = files.length ∧
      ∀ f₀ : Str, (processSeq exec total true i files).success.count f₀ +
        ((processSeq exec total true i files).failed.map Prod.fst).count f₀ =
        files.count f₀) := by
  induction files with
  | nil => intro i h; simp [processSeq]
  | cons f rest ih =>
    intro i h
    have hf : ¬ (f = []) := h f (by simp)
    obtain ⟨ih1, ih2⟩ := ih (i + 1) (fun g hg => h g (by simp [hg]))
    rw [processSeq, if_neg hf]
    cases hx : exec i f with
    | ok u =>
      refine ⟨by simpa using by omega, ?_⟩
      intro f₀
      have h2 := ih2 f₀
      simp only [if_true, List.count_cons]
      omega
    | error e =>
      refine ⟨by simpa using by omega, ?_⟩
      intro f₀
      have h2 := ih2 f₀
      simp only [if_true, List.map_cons, List.count_cons]
      omega

/-- The per-chunk collection loop with `continueOnError = true` never
aborts, and partitions every non-empty-named settled result into exactly
one of the two collections. -/
theorem collectChunk_counts (total : Nat) (results : List (Nat × Str × Except ε Unit)) :
    ∀ pc, (∀ x ∈ results, x.2.1 ≠ []) →
      ((collectChunk total true results pc).2.2 = false ∧
      (collectChunk total true results pc).1.success.length +
        (collectChunk total true results pc).1.failed.length = results.length ∧
      ∀ f₀ : Str, (collectChunk total true results pc).1.success.count f₀ +
        ((collectChunk total true results pc).1.failed.map Prod.fst).count f₀ =
        (results.map (fun x => x.2.1)).count f₀) := by
  induction results with
  | nil => intro pc h; simp [collectChunk]
  | cons x rest ih =>
    intro pc h
    obtain ⟨gi, f, res⟩ := x
    have hf : ¬ (f = []) := h (gi, f, res) (by simp)
    obtain ⟨ih0, ih1, ih2⟩ := ih (pc + 1) (fun y hy => h y (by simp [hy]))
    simp only [collectChunk]
    rw [if_neg hf]
    cases res with
    | ok u =>
      refine ⟨ih0, by simpa using by omega, ?_⟩
      intro f₀
      have h2 := ih2 f₀
      simp only [List.map_cons, List.count_cons]
      omega
    | error e =>
      refine ⟨by simpa using ih0, by simpa using by omega, ?_⟩
      intro f₀
      have h2 := ih2 f₀
      simp only [if_true, List.map_cons, List.count_cons]
      omega

/-- The chunked parallel mode with `continueOnError = true` partitions every
non-empty item of every chunk into exactly one of the two collections. -/
theorem processChunks_counts (exec : Nat → Str → Except ε Unit) (total : Nat)
    (chunks : List (List (Nat × Str))) :
    ∀ pc, (∀ c ∈ chunks, ∀ x ∈ c, x.2 ≠ []) →
      ((processChunks exec total true chunks pc).success.length +
        (processChunks exec total true chunks pc).failed.length =
        (chunks.map List.length).sum ∧
      ∀ f₀ : Str, (processChunks exec total true chunks pc).success.count f₀ +
        ((processChunks exec total true chunks pc).failed.map Prod.fst).count f₀ =
        (chunks.flatten.map Prod.snd).count f₀) := by
  induction chunks with
  | nil => intro pc h; simp [processChunks]
  | cons chunk rest ih =>
    intro pc h
    have hres : ∀ x ∈ chunk.map (fun p => (p.1, p.2, exec p.1 p.2)), x.2.1 ≠ [] := by
      intro x hx
      obtain ⟨p, hp, rfl⟩ := List.mem_map.mp hx
      exact h chunk (by simp) p hp
    obtain ⟨hab, hlen, hcnt⟩ :=
      collectChunk_counts total (chunk.map (fun p => (p.1, p.2, exec p.1 p.2))) pc hres
    obtain ⟨ihlen, ihcnt⟩ :=
      ih (collectChunk total true (chunk.map (fun p => (p.1, p.2, exec p.1 p.2))) pc).2.1
        (fun c hc => h c (by simp [hc]))
    rw [processChunks, if_neg (by simp [hab])]
    constructor
    · simp only [List.length_append, List.map_cons, List.sum_cons]
      rw [List.length_map] at hlen
      omega
    · intro f₀
      have h1 := hcnt f₀
      have h2 := ihcnt f₀
      have hmm : (chunk.map (fun p => (p.1, p.2, exec p.1 p.2))).map (fun x => x.2.1) =
          chunk.map Prod.snd := by
        rw [List.map_map]; rfl
      rw [hmm] at h1
      simp only [List.count_append, List.map_append, List.flatten_cons]
      omega

/-- The chunking worker loses no elements when given enough fuel. -/
theorem chunkListFuel_flatten (k : Nat) : ∀ (fuel : Nat) (l : List α), l.length ≤ fuel →
    (chunkListFuel k fuel l).flatten = l := by
  intro fuel
  induction fuel with
  | zero =>
    intro l h
    have hl : l = [] := List.eq_nil_of_length_eq_zero (by omega)
    subst hl; rfl
  | succ n ih =>
    intro l h
    cases l with
    | nil => rfl
    | cons a rest =>
      have h' : rest.length ≤ n := by simp only [List.length_cons] at h; omega
      rw [chunkListFuel, List.flatten_cons,
        ih (rest.drop k) (by simp only [List.length_drop]; omega)]
      simp [List.take_append_drop]

/-- Chunking concatenates back to the original list. -/
theorem chunkList_flatten (k : Nat) (l : List α) : (chunkList k l).flatten = l :=
  chunkListFuel_flatten k l.length l (le_refl _)

/-- Claim C5, amended: for every batch whose items are non-empty strings,
run with `continueOnError = true` at any concurrency, the partition is
total and disjoint: `|success| + |failed| = N`, and per item value the
occurrences in `success` and in `failed` together are exactly its
occurrences in the input (so no item lands in both, duplicates counted). -/
theorem processBatch_partition_amended (exec : Nat → Str → Except ε Unit)
    (files : List Str) (parallel : Nat) (h : ∀ f ∈ files, f ≠ []) :
    ((processBatch exec files true parallel).success.length +
      (processBatch exec files true parallel).failed.length = files.length ∧
    ∀ f₀ : Str, (processBatch exec files true parallel).success.count f₀ +
      ((processBatch exec files true parallel).failed.map Prod.fst).count f₀ =
      files.count f₀) := by
  simp only [processBatch]
  by_cases hp : max 1 parallel = 1
  · rw [if_pos hp]
    exact processSeq_counts exec files.length files 0 h
  · rw [if_neg hp]
    have hkey : ∀ c ∈ chunkList (max 1 parallel - 1) files.enum, ∀ x ∈ c, x.2 ≠ [] := by
      intro c hc x hx
      have hxl : x ∈ (chunkList (max 1 parallel - 1) files.enum).flatten :=
        List.mem_flatten.mpr ⟨c, hc, hx⟩
      rw [chunkList_flatten] at hxl
      have hx2 : x.2 ∈ files := by
        have hm := List.mem_map_of_mem Prod.snd hxl
        rwa [List.enum_map_snd] at hm
      exact h x.2 hx2
    obtain ⟨hlen, hcnt⟩ :=
      processChunks_counts exec files.length (chunkList (max 1 parallel - 1) files.enum) 0 hkey
    constructor
    · rw [hlen, ← List.length_flatten, chunkList_flatten, List.enum_length]
    · intro f₀
      rw [hcnt f₀, chunkList_flatten, List.enum_map_snd]

/-- Witness for the amended C5 at a concrete three-item batch run in the
chunked parallel mode (`parallel = 2`). -/
theorem processBatch_partition_amended_witness :
    (processBatch (ε := Unit) (fun _ _ => .ok ())
        ["a".toList, "b".toList, "c".toList] true 2).success.length +
      (processBatch (ε := Unit) (fun _ _ => .ok ())
        ["a".toList, "b".toList, "c".toList] true 2).failed.length = 3 :=
  (processBatch_partition_amended (fun _ _ => .ok ())
    ["a".toList, "b".toList, "c".toList] 2 (by decide)).1

/-- The events of a sequential all-non-empty run are exactly one event per
item, in input order, built from the item's 0-based position. -/
theorem processSeq_events (exec : Nat → Str → Except ε Unit) (total : Nat)
    (files : List Str) : ∀ i, (∀ f ∈ files, f ≠ []) →
      (processSeq exec total true i files).events =
        (List.enumFrom i files).map
          (fun p => mkProgress p.2 p.1 total (errOf exec p.1 p.2)) := by
  induction files with
  | nil => intro i h; simp [processSeq]
  | cons f rest ih =>
    intro i h
    have hf : ¬ (f = []) := h f (by simp)
    rw [processSeq, if_neg hf]
    cases hx : exec i f with
    | ok u =>
      simp only [List.enumFrom_cons, List.map_cons]
      rw [ih (i + 1) (fun g hg => h g (by simp [hg]))]
      congr 1
      simp [errOf, hx]
    | error e =>
      simp only [if_true, List.enumFrom_cons, List.map_cons]
      rw [ih (i + 1) (fun g hg => h g (by simp [hg]))]
      congr 1
      simp [errOf, hx]

/-- Indices of an enumeration, shifted by one, are the range `n+1 ..`. -/
theorem enumFrom_index_range (n : Nat) (l : List α) :
    (List.enumFrom n l).map (fun p => p.1 + 1) = List.range' (n + 1) l.length := by
  induction l generalizing n with
  | nil => simp
  | cons a rest ih => simp [List.range'_succ, ih (n + 1)]

/-- The fuel-based floor logarithm is a lower bound: `2 ^ log ≤ n`. -/
theorem natLog2Fuel_pow_le : ∀ fuel n, 1 ≤ n → n ≤ fuel → 2 ^ natLog2Fuel fuel n ≤ n := by
  intro fuel
  induction fuel with
  | zero => intro n h1 h2; omega
  | succ k ih =>
    intro n h1 h2
    rw [natLog2Fuel]
    by_cases hn : n ≤ 1
    · rw [if_pos hn]; simpa using h1
    · rw [if_neg hn, pow_succ]
      have h3 := ih (n / 2) (by omega) (by omega)
      omega

/-- `2 ^ natLog2 n ≤ n` for positive `n`. -/
theorem pow_natLog2_le (n : Nat) (h : 1 ≤ n) : 2 ^ natLog2 n ≤ n :=
  natLog2Fuel_pow_le n n h (le_refl n)

/-- Round-to-nearest never rounds below the floor of the fraction. -/
theorem div_le_rneFrac (p q : Nat) : p / q ≤ rneFrac p q := by
  rw [rneFrac]
  split_ifs <;> omega

/-- The double nearest to a positive natural number has a positive
mantissa. -/
theorem toDouble_m_pos (N : Nat) (h : 1 ≤ N) : 1 ≤ (toDouble N).m := by
  rw [toDouble, roundScaled, if_neg (by omega : ¬ N = 0)]
  show 1 ≤ rneShift N 1 (52 - floorLog2Frac N 1)
  have he : floorLog2Frac N 1 = (natLog2 N : Int) := by
    rw [floorLog2Frac, if_pos (by omega), Nat.div_one]
  rw [he, rneShift]
  by_cases hk : 0 ≤ (52 : Int) - (natLog2 N : Int)
  · rw [if_pos hk]
    have h2 : 1 ≤ N * 2 ^ ((52 - (natLog2 N : Int)).toNat) :=
      Nat.one_le_iff_ne_zero.mpr (by positivity)
    calc 1 ≤ N * 2 ^ ((52 - (natLog2 N : Int)).toNat) / 1 := by simpa [Nat.div_one] using h2
      _ ≤ rneFrac (N * 2 ^ ((52 - (natLog2 N : Int)).toNat)) 1 := div_le_rneFrac _ _
  · rw [if_neg hk]
    have hL : 52 < natLog2 N := by omega
    have hj : (-((52 : Int) - (natLog2 N : Int))).toNat = natLog2 N - 52 := by omega
    rw [hj, one_mul]
    have hpow : 2 ^ natLog2 N ≤ N := pow_natLog2_le N h
    have hdd : 2 ^ natLog2 N / 2 ^ (natLog2 N - 52) ≤ N / 2 ^ (natLog2 N - 52) :=
      Nat.div_le_div_right hpow
    rw [Nat.pow_div (by omega) (by norm_num)] at hdd
    have h52 : natLog2 N - (natLog2 N - 52) = 52 := by omega
    rw [h52] at hdd
    calc 1 ≤ 2 ^ 52 := by norm_num
      _ ≤ N / 2 ^ (natLog2 N - 52) := hdd
      _ ≤ rneFrac N (2 ^ (natLog2 N - 52)) := div_le_rneFrac _ _

/-- Dividing a double by itself yields exactly the double `1.0`
(mantissa `2 ^ 52`, exponent `-52`), whatever the mantissa. -/
theorem roundScaled_self (m : Nat) (h : 1 ≤ m) : roundScaled m m 0 = ⟨2 ^ 52, -52⟩ := by
  rw [roundScaled, if_neg (by omega : ¬ m = 0)]
  have he : floorLog2Frac m m = 0 := by
    rw [floorLog2Frac, if_pos (le_refl m), Nat.div_self (by omega)]
    rfl
  rw [he]
  have hm : rneShift m m (52 - 0) = 2 ^ 52 := by
    rw [rneShift, if_pos (by norm_num)]
    have ht : ((52 : Int) - 0).toNat = 52 := rfl
    rw [ht, rneFrac, Nat.mul_mod_right, Nat.mul_div_cancel_left _ (show 0 < m by omega)]
    rw [if_pos (by omega : 2 * 0 < m)]
  rw [hm]
  congr 1

/-- `Math.round(((N / N)) * 100)` in binary64 is exactly 100 for every
positive `N`: `toDouble N / toDouble N` rounds to the double `1.0`, the
product `1.0 * 100` rounds to the double `100.0`, and its round is 100. -/
theorem jsPercentage_self (N : Nat) (h : 1 ≤ N) : jsPercentage N N = 100 := by
  rw [jsPercentage, jsDivD, sub_self, roundScaled_self (toDouble N).m (toDouble_m_pos N h)]
  decide

/-- Claim C8, amended: for every sequential (`parallel = 1`) run with
`continueOnError = true` whose items are all non-empty strings, the progress
events carry indices exactly `1..N` in that (strictly increasing) order;
every event's percentage is `Math.round(index / total * 100)` as evaluated
in IEEE-754 binary64 arithmetic (`jsPercentage`, which can differ from the
exact-rational round — see the counterexample); the event at `index = N`
has percentage exactly 100; and the `complete` flag is true exactly for the
event with `index = total`. -/
theorem processBatch_progress_amended (exec : Nat → Str → Except ε Unit)
    (files : List Str) (h : ∀ f ∈ files, f ≠ []) :
    ((processBatch exec files true 1).events.map (fun ev => ev.index) =
      List.range' 1 files.length) ∧
    ∀ ev ∈ (processBatch exec files true 1).events,
      (ev.percentage = jsPercentage ev.index files.length ∧
      (ev.complete = true ↔ ev.index = files.length) ∧
      (ev.index = files.length → ev.percentage = 100)) := by
  have hb : processBatch exec files true 1 = processSeq exec files.length true 0 files := by
    simp [processBatch]
  rw [hb, processSeq_events exec files.length files 0 h]
  constructor
  · rw [List.map_map]
    have hfun : ((fun ev : BatchProgress ε => ev.index) ∘
        fun p : Nat × Str => mkProgress p.2 p.1 files.length (errOf exec p.1 p.2)) =
        (fun p : Nat × Str => p.1 + 1) := rfl
    rw [hfun, enumFrom_index_range]
  · intro ev hev
    obtain ⟨p, hp, rfl⟩ := List.mem_map.mp hev
    have hlt : p.1 < files.length := by
      have h1 : p.1 ∈ (List.enumFrom 0 files).map Prod.fst := List.mem_map_of_mem _ hp
      rw [List.enumFrom_map_fst] at h1
      have h2 := List.mem_range'_1.mp h1
      omega
    refine ⟨rfl, ?_, ?_⟩
    · simp only [mkProgress, decide_eq_true_eq]
      omega
    · intro hidx
      simp only [mkProgress] at hidx ⊢
      rw [hidx]
      exact jsPercentage_self files.length (by omega)

/-- Witness for the amended C8 at a concrete two-item batch. -/
theorem processBatch_progress_amended_witness :
    (processBatch (ε := Unit) (fun _ _ => .ok ()) ["a".toList, "b".toList] true 1).events.map
      (fun ev => ev.index) = List.range' 1 2 :=
  (processBatch_progress_amended (fun _ _ => .ok ()) ["a".toList, "b".toList] (by decide)).1

/-- Counterexample to claim C8 as stated, on both failing clauses. First,
a sequential batch of two items whose second item is the empty string emits
only one event — the observed index values are `[1]`, not `1..2`. Second,
the percentage is not the exact round of `index / total * 100`: in a
40-item batch the event at index 23 carries percentage 57 (the binary64
evaluation of `(23/40)*100` is the double `57.49999999999999289…`, which
`Math.round` takes to 57), while the exact round-half-up of
`23 / 40 * 100 = 57.5` is 58. -/
theorem processBatch_progress_counterexample :
    ((processBatch (ε := Unit) (fun _ _ => .ok ()) ["a".toList, []] true 1).events.map
      (fun ev => ev.index) ≠ List.range' 1 2) ∧
    (∃ ev ∈ (processBatch (ε := Unit) (fun _ _ => .ok ())
        (List.replicate 40 "x".toList) true 1).events,
      ev.index = 23 ∧ ev.percentage = 57) ∧
    (2 * (23 * 100) + 40) / (2 * 40) = 58 := by
  refine ⟨by decide, by decide, by decide⟩
